import Mathlib

/-!
Verification of the Gaussian-beam ABCD toolkit (single module `abcd.py`).

The module has two independent layers:

* the propagation engine (`qABCD`, `qreverse`, `qpropagate`) and the matrix
  constructors (`Mprop`, `Minterface`, `Mlens`, `Mmirror`): these perform only
  field arithmetic and order comparisons on the numbers the caller supplies,
  so they are embedded over exact rationals, with the complex q-parameter
  embedded as a pair of rationals (`GQ`, the Gaussian ring ℚ[i]);
* the wavelength-dependent conversion formulas (`wR2q`, `w02q`, `q2w`,
  `q2w0`): these involve π and square roots, so they are embedded over ℝ/ℂ.

Python list mutation in `qpropagate` (copy, in-place sort, in-place reverse,
pop from the end) is embedded by explicit list passing; the heap model
`qpropagatePy` additionally makes the aliasing of the caller collection
explicit for the no-mutation property.
-/

/-- A 2x2 real ABCD matrix `[[A, B], [C, D]]`, embedded with exact rational
entries.  The source builds these as `np.array` nested lists and reads them
back by indexed access `M[0,0] .. M[1,1]`. -/
structure Mat where
  A : ℚ
  B : ℚ
  C : ℚ
  D : ℚ
deriving DecidableEq

/-- An optical element: the pairing `[z-location, ABCD matrix]` used by
`qpropagate`. -/
abbrev El := ℚ × Mat

/-- The complex q-parameter, embedded as an exact pair (real part, imaginary
part); complex floats in the source. -/
@[ext]
structure GQ where
  re : ℚ
  im : ℚ
deriving DecidableEq

/-- Adding a real number to a complex number (`q += delta` in the source)
touches only the real part. -/
def GQ.addR (q : GQ) (d : ℚ) : GQ := ⟨q.re + d, q.im⟩

/-- Multiplying a complex number by a real scalar (the matrix entries are
real). -/
def GQ.smulR (r : ℚ) (q : GQ) : GQ := ⟨r * q.re, r * q.im⟩

/-- Complex division, written out on real and imaginary parts. -/
def GQ.div (x y : GQ) : GQ :=
  ⟨(x.re * y.re + x.im * y.im) / (y.re ^ 2 + y.im ^ 2),
   (x.im * y.re - x.re * y.im) / (y.re ^ 2 + y.im ^ 2)⟩

/-- Complex conjugation (`conj` in the source). -/
def GQ.conj (q : GQ) : GQ := ⟨q.re, -q.im⟩

/-- Complex negation. -/
def GQ.neg (q : GQ) : GQ := ⟨-q.re, -q.im⟩

/-- Source `qABCD(q, M)`: the bilinear transform
`(M[0,0]*q + M[0,1]) / (M[1,0]*q + M[1,1])`. -/
def qABCD (q : GQ) (M : Mat) : GQ :=
  GQ.div ((GQ.smulR M.A q).addR M.B) ((GQ.smulR M.C q).addR M.D)

/-- Source `qreverse(q)`: `-conj(q)`. -/
def qreverse (q : GQ) : GQ := GQ.neg (GQ.conj q)

/-- Source `Mprop(d)`: `[[1, d], [0, 1]]`. -/
def Mprop (d : ℚ) : Mat := ⟨1, d, 0, 1⟩

/-- Source `Minterface(n0, n1, R='inf')`: returns `[[1, 0], [0, n0/n1]]`.
The optional curvature argument defaults to the string sentinel `'inf'` in
the source; it is embedded as `Option ℚ` with `none` standing for the
default sentinel.  The body never reads `R`. -/
def Minterface (n0 n1 : ℚ) (R : Option ℚ) : Mat := ⟨1, 0, 0, n0 / n1⟩

/-- Source `Mlens(f)`: `[[1, 0], [-1/f, 1]]`. -/
def Mlens (f : ℚ) : Mat := ⟨1, 0, -1 / f, 1⟩

/-- Source `Mmirror(R)`: `[[1, 0], [2/R, 1]]`. -/
def Mmirror (R : ℚ) : Mat := ⟨1, 0, 2 / R, 1⟩

/-- Flattening of an element to its comparison key: position first, then the
matrix entries, mirroring the lexicographic comparison of the nested lists
`[z, [[A, B], [C, D]]]` that `elements.sort()` performs (position is the
primary key; on a position tie the matrix values break the tie, as the spec
data model states). -/
def elKey (e : El) : List ℚ := [e.1, e.2.A, e.2.B, e.2.C, e.2.D]

/-- Lexicographic comparison of rational lists. -/
def lexQ : List ℚ → List ℚ → Bool
  | [], _ => true
  | _ :: _, [] => false
  | a :: as, b :: bs => if a < b then true else if b < a then false else lexQ as bs

/-- The total order in which `elements.sort()` arranges elements. -/
def elLE (e f : El) : Prop := lexQ (elKey e) (elKey f) = true

instance : DecidableRel elLE := fun e f =>
  inferInstanceAs (Decidable (lexQ (elKey e) (elKey f) = true))

/-- Source `elements.sort()`: sorting with a total, antisymmetric, decidable
order has a unique result, so insertion sort coincides with the sort used by
the source. -/
def sortEls (l : List El) : List El := List.insertionSort elLE l

/-- The forward while-loop of `qpropagate`.  The source reverses the
ascending-sorted list and then repeatedly executes `el = elements.pop()`,
which removes the LAST item, i.e. the loop consumes the ascending list from
the lowest position upward; the recursion below consumes its argument list
front to back, so the forward branch feeds it the ascending list.  Each
qualifying element (position inside `[zt, z]`) contributes the free-space
gap `qt += el[0] - zt`, the transform `qt = qABCD(qt, el[1])`, and the
update `zt = el[0]`. -/
def fwdWalk (z : ℚ) : List El → ℚ → GQ → ℚ × GQ
  | [], zt, qt => (zt, qt)
  | e :: rest, zt, qt =>
    if zt ≤ e.1 ∧ e.1 ≤ z then
      fwdWalk z rest e.1 (qABCD (qt.addR (e.1 - zt)) e.2)
    else
      fwdWalk z rest zt qt

/-- The backward while-loop of `qpropagate`.  Here the source pops from the
end of the ascending-sorted list, i.e. consumes positions from the highest
downward; the backward branch therefore feeds this recursion the reversed
(descending) list.  The gap is `qt += zt - el[0]` and the window is
`z <= el[0] <= zt`. -/
def bwdWalk (z : ℚ) : List El → ℚ → GQ → ℚ × GQ
  | [], zt, qt => (zt, qt)
  | e :: rest, zt, qt =>
    if z ≤ e.1 ∧ e.1 ≤ zt then
      bwdWalk z rest e.1 (qABCD (qt.addR (zt - e.1)) e.2)
    else
      bwdWalk z rest zt qt

/-- Body of `qpropagate` after the private copy has been sorted: the `if
z >= zini` dispatch, the walk, the final free-space gap, and (backward) the
surrounding pair of `qreverse` calls. -/
def qpropSorted (zini : ℚ) (qini : GQ) (els : List El) (z : ℚ) : GQ :=
  if z ≥ zini then
    (fwdWalk z els zini qini).2.addR (z - (fwdWalk z els zini qini).1)
  else
    qreverse ((bwdWalk z els.reverse zini (qreverse qini)).2.addR
      ((bwdWalk z els.reverse zini (qreverse qini)).1 - z))

/-- Source `qpropagate(zini, qini, elements, z)`: copy the caller list
(`elements = elements[:]`), sort it, and run the walk. -/
def qpropagate (zini : ℚ) (qini : GQ) (elements : List El) (z : ℚ) : GQ :=
  qpropSorted zini qini (sortEls elements) z

/-- Definition following the words of the spec for the forward branch: the
walk visits the DESCENDING position order, at every step taking the
highest-position remaining element whose position lies within the window
`[zt, z]` for the current walked location `zt`, then applies the final
free-space gap to `z`.  Stated for comparison with `qpropagate`, which the
spec describes with these words. -/
def qpropagateSpecFwd (zini : ℚ) (qini : GQ) (elements : List El) (z : ℚ) : GQ :=
  (fwdWalk z (sortEls elements).reverse zini qini).2.addR
    (z - (fwdWalk z (sortEls elements).reverse zini qini).1)

/-- Unconditional forward application: cross the gap to each listed element
in turn and apply its transform. -/
def applySeq : List El → ℚ → GQ → ℚ × GQ
  | [], zt, qt => (zt, qt)
  | e :: rest, zt, qt => applySeq rest e.1 (qABCD (qt.addR (e.1 - zt)) e.2)

/-- Unconditional backward application (gaps run downward). -/
def applySeqB : List El → ℚ → GQ → ℚ × GQ
  | [], zt, qt => (zt, qt)
  | e :: rest, zt, qt => applySeqB rest e.1 (qABCD (qt.addR (zt - e.1)) e.2)

/-- The elements a forward call actually applies: the in-range part of the
ascending-sorted list. -/
def fwdApplied (zini z : ℚ) (l : List El) : List El :=
  (sortEls l).filter fun e => decide (zini ≤ e.1 ∧ e.1 ≤ z)

/-- The elements a backward call actually applies: the in-range part of the
descending-sorted list. -/
def bwdApplied (zini z : ℚ) (l : List El) : List El :=
  (sortEls l).reverse.filter fun e => decide (z ≤ e.1 ∧ e.1 ≤ zini)

/-- Python heap model of one `qpropagate` call, tracking what happens to the
lists reachable from the caller.  The heap is a list of element lists; the
caller passes the index of its collection.  The body mirrors the source line
by line: `elements = elements[:]` allocates a fresh copy at a fresh index;
`elements.sort()` rewrites that index in place; the while-loop pops the
working list until it is empty (so the working index ends at `[]`) while
computing exactly the value `qpropSorted` computes from the sorted copy. -/
def qpropagatePy (zini : ℚ) (qini : GQ) (heap : List (List El)) (elemsId : ℕ)
    (z : ℚ) : GQ × List (List El) :=
  let caller := heap.getD elemsId []
  let workId := heap.length
  let heap1 := heap ++ [caller]
  let heap2 := heap1.set workId (sortEls caller)
  let q := qpropSorted zini qini (heap2.getD workId []) z
  (q, heap2.set workId [])

/-!  Properties of the lexicographic comparison used by the sort. -/

theorem lexQ_total : ∀ as bs : List ℚ, lexQ as bs = true ∨ lexQ bs as = true := by
  intro as
  induction as with
  | nil => intro bs; left; rfl
  | cons a as ih =>
    intro bs
    cases bs with
    | nil => right; rfl
    | cons b bs =>
      simp only [lexQ]
      rcases lt_trichotomy a b with h | h | h
      · left; simp [h]
      · subst h; simpa [lt_irrefl] using ih bs
      · right; simp [h]

theorem lexQ_trans : ∀ as bs cs : List ℚ,
    lexQ as bs = true → lexQ bs cs = true → lexQ as cs = true := by
  intro as
  induction as with
  | nil => intro bs cs _ _; rfl
  | cons a as ih =>
    intro bs cs hab hbc
    cases bs with
    | nil => simp [lexQ] at hab
    | cons b bs =>
      cases cs with
      | nil => simp [lexQ] at hbc
      | cons c cs =>
        simp only [lexQ] at hab hbc ⊢
        split_ifs at hab hbc ⊢ with h1 h2 h3 h4 h5 h6 <;>
          first
            | rfl
            | (exfalso; linarith)
            | (exact ih bs cs hab hbc)

theorem lexQ_antisymm : ∀ as bs : List ℚ,
    lexQ as bs = true → lexQ bs as = true → as = bs := by
  intro as
  induction as with
  | nil =>
    intro bs _ hba
    cases bs with
    | nil => rfl
    | cons b bs => simp [lexQ] at hba
  | cons a as ih =>
    intro bs hab hba
    cases bs with
    | nil => simp [lexQ] at hab
    | cons b bs =>
      simp only [lexQ] at hab hba
      by_cases h1 : a < b
      · simp [h1, lt_asymm h1] at hba
      · by_cases h2 : b < a
        · simp [h1, h2] at hab
        · have hE : a = b := le_antisymm (not_lt.mp h2) (not_lt.mp h1)
          subst hE
          simp [lt_irrefl] at hab hba
          rw [ih bs hab hba]

instance : IsTotal El elLE :=
  ⟨fun e f => lexQ_total (elKey e) (elKey f)⟩

instance : IsTrans El elLE :=
  ⟨fun e f g hab hbc => lexQ_trans (elKey e) (elKey f) (elKey g) hab hbc⟩

instance : IsAntisymm El elLE := by
  constructor
  intro e f hab hba
  have hk : elKey e = elKey f := lexQ_antisymm _ _ hab hba
  obtain ⟨p, ⟨a, b, c, d⟩⟩ := e
  obtain ⟨p2, ⟨a2, b2, c2, d2⟩⟩ := f
  simp only [elKey, List.cons.injEq, and_true] at hk
  obtain ⟨h1, h2, h3, h4, h5⟩ := hk
  simp [h1, h2, h3, h4, h5]

/-- The sort order implies the position order. -/
theorem elLE_pos_le {e f : El} (h : elLE e f) : e.1 ≤ f.1 := by
  unfold elLE elKey lexQ at h
  split_ifs at h with h1 h2
  · exact le_of_lt h1
  · exact le_of_eq (le_antisymm (not_lt.mp h2) (not_lt.mp h1))

/-- The sorted copy is ascending in position. -/
theorem sortEls_pos_pairwise (l : List El) :
    (sortEls l).Pairwise fun e f => e.1 ≤ f.1 :=
  (List.sorted_insertionSort elLE l).imp elLE_pos_le

/-- Adding a zero gap is a no-op. -/
theorem GQ.addR_zero (q : GQ) : q.addR 0 = q := by
  ext <;> simp [GQ.addR]

/-- On a list that is ascending in position, the conditional forward loop
applies exactly the elements whose position lies in the window `[zt, z]`,
in the order listed. -/
theorem fwdWalk_eq_applySeq (z : ℚ) :
    ∀ (l : List El) (zt : ℚ) (qt : GQ),
      (l.Pairwise fun e f => e.1 ≤ f.1) →
      fwdWalk z l zt qt =
        applySeq (l.filter fun e => decide (zt ≤ e.1 ∧ e.1 ≤ z)) zt qt := by
  intro l
  induction l with
  | nil => intro zt qt _; rfl
  | cons e rest ih =>
    intro zt qt hp
    rw [List.pairwise_cons] at hp
    obtain ⟨hhead, hrest⟩ := hp
    by_cases hc : zt ≤ e.1 ∧ e.1 ≤ z
    · have hstep :
          (rest.filter fun f => decide (e.1 ≤ f.1 ∧ f.1 ≤ z)) =
            rest.filter fun f => decide (zt ≤ f.1 ∧ f.1 ≤ z) := by
        apply List.filter_congr
        intro f hf
        have h1 : e.1 ≤ f.1 := hhead f hf
        have h2 : zt ≤ f.1 := le_trans hc.1 h1
        simp [h1, h2]
      simp only [fwdWalk, if_pos hc, List.filter_cons, decide_eq_true hc, if_true,
        applySeq]
      rw [ih e.1 (qABCD (qt.addR (e.1 - zt)) e.2) hrest, hstep]
    · have hd : decide (zt ≤ e.1 ∧ e.1 ≤ z) = false := decide_eq_false hc
      simp only [fwdWalk, if_neg hc, List.filter_cons, hd, Bool.false_eq_true,
        if_false]
      exact ih zt qt hrest

/-- On a list that is descending in position, the conditional backward loop
applies exactly the elements whose position lies in the window `[z, zt]`,
in the order listed. -/
theorem bwdWalk_eq_applySeqB (z : ℚ) :
    ∀ (l : List El) (zt : ℚ) (qt : GQ),
      (l.Pairwise fun e f => f.1 ≤ e.1) →
      bwdWalk z l zt qt =
        applySeqB (l.filter fun e => decide (z ≤ e.1 ∧ e.1 ≤ zt)) zt qt := by
  intro l
  induction l with
  | nil => intro zt qt _; rfl
  | cons e rest ih =>
    intro zt qt hp
    rw [List.pairwise_cons] at hp
    obtain ⟨hhead, hrest⟩ := hp
    by_cases hc : z ≤ e.1 ∧ e.1 ≤ zt
    · have hstep :
          (rest.filter fun f => decide (z ≤ f.1 ∧ f.1 ≤ e.1)) =
            rest.filter fun f => decide (z ≤ f.1 ∧ f.1 ≤ zt) := by
        apply List.filter_congr
        intro f hf
        have h1 : f.1 ≤ e.1 := hhead f hf
        have h2 : f.1 ≤ zt := le_trans h1 hc.2
        simp [h1, h2]
      simp only [bwdWalk, if_pos hc, List.filter_cons, decide_eq_true hc, if_true,
        applySeqB]
      rw [ih e.1 (qABCD (qt.addR (zt - e.1)) e.2) hrest, hstep]
    · have hd : decide (z ≤ e.1 ∧ e.1 ≤ zt) = false := decide_eq_false hc
      simp only [bwdWalk, if_neg hc, List.filter_cons, hd, Bool.false_eq_true,
        if_false]
      exact ih zt qt hrest

/-- Setting the freshly appended cell rewrites only that cell. -/
theorem listSetAppend {α : Type} : ∀ (l : List α) (a b : α),
    (l ++ [a]).set l.length b = l ++ [b] := by
  intro l
  induction l with
  | nil => intro a b; rfl
  | cons x l ih => intro a b; simp [ih]

/-- Reading the freshly appended cell. -/
theorem listGetDAppend {α : Type} : ∀ (l : List α) (a d : α),
    (l ++ [a]).getD l.length d = a := by
  intro l
  induction l with
  | nil => intro a d; rfl
  | cons x l ih => intro a d; simpa using ih a d

/-- Reading below the appended cell sees the original list. -/
theorem listGetDAppendLt {α : Type} : ∀ (l : List α) (a : α) (i : ℕ) (d : α),
    i < l.length → (l ++ [a]).getD i d = l.getD i d := by
  intro l
  induction l with
  | nil => intro a i d h; simp at h
  | cons x l ih =>
    intro a i d h
    cases i with
    | zero => rfl
    | succ n => simpa using ih a n d (by simpa using h)

/-- Claim C2, counterexample: with a lens of focal length 1 at position 1 and
another at position 2, propagating from 0 to 3 does not return the value the
highest-position-first walk described by the spec returns; the source pops
the LOWEST-position element first. -/
theorem c2_counterexample :
    qpropagate 0 ⟨0, 1⟩ [(1, Mlens 1), (2, Mlens 1)] 3 ≠
      qpropagateSpecFwd 0 ⟨0, 1⟩ [(1, Mlens 1), (2, Mlens 1)] 3 := by
  norm_num [qpropagate, qpropSorted, qpropagateSpecFwd, sortEls,
    List.insertionSort, List.orderedInsert, elLE, elKey, lexQ, fwdWalk, qABCD,
    GQ.div, GQ.smulR, GQ.addR, Mlens, GQ.ext_iff]

/-- Claim C2, amended: when `z >= z_ini`, `qpropagate` processes the elements
whose positions lie in `[z_ini, z]` in ASCENDING position order: at every
step it takes the LOWEST-position remaining element whose position lies
within `[current walked location, z]`, advances the q-parameter across the
gap, applies that element, and updates the walked location; the returned
q-parameter equals this lowest-position-first composition followed by the
final free-space gap to `z`. -/
theorem c2_forward_lowest_first (zini z : ℚ) (qini : GQ) (els : List El)
    (h : zini ≤ z) :
    qpropagate zini qini els z =
      (applySeq (fwdApplied zini z els) zini qini).2.addR
        (z - (applySeq (fwdApplied zini z els) zini qini).1) := by
  unfold qpropagate qpropSorted
  rw [if_pos (ge_iff_le.mpr h)]
  rw [fwdWalk_eq_applySeq z (sortEls els) zini qini (sortEls_pos_pairwise els)]
  rfl

/-- Witness for the amended claim C2 at a concrete forward call. -/
theorem c2_forward_lowest_first_witness :
    qpropagate 0 ⟨0, 1⟩ [(1, Mlens 1), (2, Mlens 1)] 3 =
      (applySeq (fwdApplied 0 3 [(1, Mlens 1), (2, Mlens 1)]) 0 ⟨0, 1⟩).2.addR
        (3 - (applySeq (fwdApplied 0 3 [(1, Mlens 1), (2, Mlens 1)]) 0 ⟨0, 1⟩).1) :=
  c2_forward_lowest_first 0 3 ⟨0, 1⟩ [(1, Mlens 1), (2, Mlens 1)] (by norm_num)

/-- Claim C3: for any refractive indices with `n1` nonzero and any value of
the optional curvature argument (the default sentinel included),
`Minterface` returns `[[1, 0], [0, n0/n1]]` and thus does not depend on the
curvature argument in any way. -/
theorem c3_interface_ignores_R (n0 n1 : ℚ) (R Rp : Option ℚ) (h : n1 ≠ 0) :
    Minterface n0 n1 R = Mat.mk 1 0 0 (n0 / n1) ∧
      Minterface n0 n1 R = Minterface n0 n1 Rp :=
  ⟨rfl, rfl⟩

/-- Witness for claim C3 at concrete indices and curvatures. -/
theorem c3_interface_ignores_R_witness :
    Minterface 3 2 none = Mat.mk 1 0 0 (3 / 2) ∧
      Minterface 3 2 none = Minterface 3 2 (some 5) :=
  c3_interface_ignores_R 3 2 none (some 5) (by norm_num)

/-- Claim C4: with an empty element collection, `qpropagate` returns exactly
`q_ini + (z - z_ini)`, in the forward and in the backward case alike. -/
theorem c4_empty_elements (zini z : ℚ) (qini : GQ) :
    qpropagate zini qini [] z = qini.addR (z - zini) := by
  unfold qpropagate qpropSorted sortEls
  by_cases h : z ≥ zini
  · rw [if_pos h]; rfl
  · rw [if_neg h]
    ext <;> simp [bwdWalk, fwdWalk, List.insertionSort, qreverse, GQ.neg,
      GQ.conj, GQ.addR] <;> ring

/-- Claim C8: applying the free-space ABCD matrix `Mprop d` through the
general bilinear transform `qABCD` equals the additive offset `q + d`, so
the `q += delta` steps inside `qpropagate` agree with constructing the
free-space matrix and applying the general transform. -/
theorem c8_prop_matrix_additive (q : GQ) (d : ℚ) :
    qABCD q (Mprop d) = q.addR d := by
  ext <;> simp [qABCD, Mprop, GQ.div, GQ.smulR, GQ.addR]

/-- Claim C9: direction reversal is an involution, exactly. -/
theorem c9_reverse_involution (q : GQ) : qreverse (qreverse q) = q := by
  ext <;> simp [qreverse, GQ.neg, GQ.conj]

/-- Claim C10: direction reversal keeps the imaginary part, negates the real
part, and therefore preserves the physical-validity invariant `Im(q) > 0`. -/
theorem c10_reverse_parts (q : GQ) :
    (qreverse q).im = q.im ∧ (qreverse q).re = -q.re ∧
      (0 < q.im → 0 < (qreverse q).im) := by
  refine ⟨?_, ?_, fun h => ?_⟩
  · simp [qreverse, GQ.neg, GQ.conj]
  · simp [qreverse, GQ.neg, GQ.conj]
  · simpa [qreverse, GQ.neg, GQ.conj] using h

/-- Witness for claim C10 at a concrete q-parameter. -/
theorem c10_reverse_parts_witness :
    0 < (GQ.mk 1 2).im ∧ 0 < (qreverse (GQ.mk 1 2)).im :=
  ⟨by norm_num, (c10_reverse_parts ⟨1, 2⟩).2.2 (by norm_num)⟩

/-- Claim C5: elements placed exactly at `z_ini` and exactly at `z` are
included in the traversal, forward and backward alike.  Each branch states,
first, that the call equals the unconditional walk over the in-range part of
the sorted list (so membership in that part means the ABCD transform is
applied), and second, that any supplied element positioned exactly at
`z_ini` or exactly at `z` belongs to that part. -/
theorem c5_boundary_inclusive (zini z : ℚ) (qini : GQ) (l : List El) (e : El) :
    (zini ≤ z →
      qpropagate zini qini l z =
        (applySeq (fwdApplied zini z l) zini qini).2.addR
          (z - (applySeq (fwdApplied zini z l) zini qini).1) ∧
      (e ∈ l → e.1 = zini ∨ e.1 = z → e ∈ fwdApplied zini z l)) ∧
    (z < zini →
      qpropagate zini qini l z =
        qreverse ((applySeqB (bwdApplied zini z l) zini (qreverse qini)).2.addR
          ((applySeqB (bwdApplied zini z l) zini (qreverse qini)).1 - z)) ∧
      (e ∈ l → e.1 = zini ∨ e.1 = z → e ∈ bwdApplied zini z l)) := by
  constructor
  · intro h
    constructor
    · unfold qpropagate qpropSorted
      rw [if_pos (ge_iff_le.mpr h)]
      rw [fwdWalk_eq_applySeq z (sortEls l) zini qini (sortEls_pos_pairwise l)]
      rfl
    · intro hmem hpos
      have hsort : e ∈ sortEls l := (List.perm_insertionSort elLE l).mem_iff.mpr hmem
      refine List.mem_filter.mpr ⟨hsort, ?_⟩
      rcases hpos with hp | hp <;> rw [hp] <;> simp [h]
  · intro h
    constructor
    · unfold qpropagate qpropSorted
      rw [if_neg (by exact fun hge => absurd (ge_iff_le.mp hge) (not_le.mpr h))]
      rw [bwdWalk_eq_applySeqB z (sortEls l).reverse zini (qreverse qini)
        (List.pairwise_reverse.mpr (sortEls_pos_pairwise l))]
      rfl
    · intro hmem hpos
      have hsort : e ∈ (sortEls l).reverse :=
        List.mem_reverse.mpr ((List.perm_insertionSort elLE l).mem_iff.mpr hmem)
      refine List.mem_filter.mpr ⟨hsort, ?_⟩
      rcases hpos with hp | hp <;> rw [hp] <;> simp [le_of_lt h]

/-- Witness for claim C5: a lens exactly at the start of a forward call and
a lens exactly at the target of a backward call are both applied. -/
theorem c5_boundary_inclusive_witness :
    (qpropagate 0 ⟨0, 1⟩ [(0, Mlens 1)] 2 =
      (applySeq (fwdApplied 0 2 [(0, Mlens 1)]) 0 ⟨0, 1⟩).2.addR
        (2 - (applySeq (fwdApplied 0 2 [(0, Mlens 1)]) 0 ⟨0, 1⟩).1)) ∧
    (0, Mlens 1) ∈ fwdApplied 0 2 [(0, Mlens 1)] ∧
    (qpropagate 2 ⟨0, 1⟩ [(0, Mlens 1)] 0 =
      qreverse ((applySeqB (bwdApplied 2 0 [(0, Mlens 1)]) 2 (qreverse ⟨0, 1⟩)).2.addR
        ((applySeqB (bwdApplied 2 0 [(0, Mlens 1)]) 2 (qreverse ⟨0, 1⟩)).1 - 0))) ∧
    (0, Mlens 1) ∈ bwdApplied 2 0 [(0, Mlens 1)] := by
  refine ⟨?_, ?_, ?_, ?_⟩
  · exact ((c5_boundary_inclusive 0 2 ⟨0, 1⟩ [(0, Mlens 1)] (0, Mlens 1)).1
      (by norm_num)).1
  · exact ((c5_boundary_inclusive 0 2 ⟨0, 1⟩ [(0, Mlens 1)] (0, Mlens 1)).1
      (by norm_num)).2 (List.mem_singleton.mpr rfl) (Or.inl rfl)
  · exact ((c5_boundary_inclusive 2 0 ⟨0, 1⟩ [(0, Mlens 1)] (0, Mlens 1)).2
      (by norm_num)).1
  · exact ((c5_boundary_inclusive 2 0 ⟨0, 1⟩ [(0, Mlens 1)] (0, Mlens 1)).2
      (by norm_num)).2 (List.mem_singleton.mpr rfl) (Or.inr rfl)

/-- Claim C6: two element lists holding the same (position, matrix) pairs in
different input orders propagate to the same q-parameter, because the engine
sorts its private copy with a total order before walking. -/
theorem c6_order_invariance (zini z : ℚ) (qini : GQ) (l1 l2 : List El)
    (h : l1.Perm l2) :
    qpropagate zini qini l1 z = qpropagate zini qini l2 z := by
  unfold qpropagate
  rw [show sortEls l1 = sortEls l2 from
    List.eq_of_perm_of_sorted
      ((List.perm_insertionSort elLE l1).trans
        (h.trans (List.perm_insertionSort elLE l2).symm))
      (List.sorted_insertionSort elLE l1) (List.sorted_insertionSort elLE l2)]

/-- Witness for claim C6 on two orderings of a two-element system. -/
theorem c6_order_invariance_witness :
    qpropagate 0 ⟨0, 1⟩ [(1, Mlens 1), (2, Mmirror 4)] 3 =
      qpropagate 0 ⟨0, 1⟩ [(2, Mmirror 4), (1, Mlens 1)] 3 :=
  c6_order_invariance 0 3 ⟨0, 1⟩ _ _ (List.Perm.swap (2, Mmirror 4) (1, Mlens 1) [])

/-- Claim C7: a `qpropagate` call leaves the caller collection exactly as it
was.  In the heap model the call allocates a private copy, sorts and then
consumes only that copy, so every heap cell the caller could alias, in
particular its own collection, still holds the same pairs in the same order,
and the returned value is the one `qpropagate` computes from the caller
collection. -/
theorem c7_no_mutation (zini z : ℚ) (qini : GQ) (heap : List (List El)) (i : ℕ)
    (h : i < heap.length) :
    (qpropagatePy zini qini heap i z).2.getD i [] = heap.getD i [] ∧
    (qpropagatePy zini qini heap i z).1 =
      qpropagate zini qini (heap.getD i []) z := by
  constructor
  · simp only [qpropagatePy, listSetAppend]
    exact listGetDAppendLt heap _ i [] h
  · simp only [qpropagatePy, listSetAppend, listGetDAppend]
    rfl

/-- Witness for claim C7 on a one-cell heap. -/
theorem c7_no_mutation_witness :
    (qpropagatePy 0 ⟨0, 1⟩ [[(1, Mlens 1)]] 0 3).2.getD 0 [] =
      [[(1, Mlens 1)]].getD 0 [] ∧
    (qpropagatePy 0 ⟨0, 1⟩ [[(1, Mlens 1)]] 0 3).1 =
      qpropagate 0 ⟨0, 1⟩ ([[(1, Mlens 1)]].getD 0 []) 3 :=
  c7_no_mutation 0 3 ⟨0, 1⟩ [[(1, Mlens 1)]] 0 (by norm_num)

/-- Source wavelength constant `lam = 0.000860` (860 nm in millimetres). -/
noncomputable def lam : ℝ := 0.000860

/-- Source `wR2q(w, R)`: `1/(1/R - 1j*lam/(pi*w**2))`. -/
noncomputable def wR2q (w R : ℝ) : ℂ :=
  1 / (1 / (R : ℂ) - Complex.I * (lam : ℂ) / ((Real.pi : ℂ) * (w : ℂ) ^ 2))

/-- Source `w02q(w0)`: `1j * pi * w0**2 / lam`. -/
noncomputable def w02q (w0 : ℝ) : ℂ :=
  Complex.I * (Real.pi : ℂ) * (w0 : ℂ) ^ 2 / (lam : ℂ)

/-- Source `q2w(q)`: `np.sqrt(-lam / (pi * np.imag(1 / q)))`; the argument of
the square root is a real number. -/
noncomputable def q2w (q : ℂ) : ℝ :=
  Real.sqrt (-lam / (Real.pi * (1 / q).im))

/-- Source `q2w0(q)`: `np.sqrt(np.imag(q) * lam / q)`.  The divisor is the
COMPLEX `q`, so the argument of the square root is complex and numpy takes
the principal complex square root, embedded here as the principal complex
power with exponent one half. -/
noncomputable def q2w0 (q : ℂ) : ℂ :=
  ((((q.im * lam : ℝ)) : ℂ) / q) ^ ((1 : ℂ) / 2)

theorem lam_pos : (0 : ℝ) < lam := by norm_num [lam]

/-- Imaginary part of the reciprocal of a purely imaginary number. -/
theorem one_div_real_mul_I_im (x : ℝ) (hx : x ≠ 0) :
    (1 / ((x : ℂ) * Complex.I)).im = -x⁻¹ := by
  have hz : ((x : ℂ) * Complex.I)⁻¹.im = -x / (x * x) := by
    rw [Complex.inv_im]
    norm_num [Complex.mul_im, Complex.mul_re, Complex.normSq_apply]
  rw [one_div, hz]
  field_simp

/-- Round trip from a waist size through `w02q` and back through `q2w` is
exact for positive waist sizes. -/
theorem q2w_w02q (w0 : ℝ) (h : 0 < w0) : q2w (w02q w0) = w0 := by
  have hl : (0 : ℝ) < lam := lam_pos
  have hpi : (0 : ℝ) < Real.pi := Real.pi_pos
  have hc0 : 0 < Real.pi * w0 ^ 2 / lam := by positivity
  have hq : w02q w0 = ((Real.pi * w0 ^ 2 / lam : ℝ) : ℂ) * Complex.I := by
    unfold w02q
    push_cast
    ring
  have him : (1 / w02q w0).im = -(Real.pi * w0 ^ 2 / lam)⁻¹ := by
    rw [hq]
    exact one_div_real_mul_I_im _ (ne_of_gt hc0)
  unfold q2w
  rw [him]
  have harg : -lam / (Real.pi * -(Real.pi * w0 ^ 2 / lam)⁻¹) = w0 ^ 2 := by
    field_simp
    ring
  rw [harg, Real.sqrt_sq h.le]

/-- Claim C1: the `q2w` round trip from a positive waist size is exact, but
the `q2w0` round trip FAILS on the code: `q2w0` divides `imag(q)*lam` by the
complex `q` itself (the physically intended divisor is `pi`), so at waist
size 1 the radicand evaluates to `-i*lam` and the principal square root is a
number with nonzero imaginary part, not the waist size 1. -/
theorem c1_waist_roundtrip_eval : q2w (w02q 1) = 1 ∧ q2w0 (w02q 1) ≠ 1 := by
  constructor
  · simpa using q2w_w02q 1 one_pos
  · have hl0 : lam ≠ 0 := ne_of_gt lam_pos
    have hpi0 : Real.pi ≠ 0 := Real.pi_ne_zero
    have hq : w02q 1 = ((Real.pi / lam : ℝ) : ℂ) * Complex.I := by
      unfold w02q
      push_cast
      ring
    have him1 : (w02q 1).im = Real.pi / lam := by
      rw [hq]
      simp [Complex.mul_im]
    have hrad : ((((w02q 1).im * lam : ℝ)) : ℂ) / (w02q 1) =
        -Complex.I * (lam : ℂ) := by
      rw [him1, hq]
      have hden : ((Real.pi / lam : ℝ) : ℂ) * Complex.I ≠ 0 := by
        apply mul_ne_zero
        · exact_mod_cast div_ne_zero hpi0 hl0
        · exact Complex.I_ne_zero
      rw [div_eq_iff hden]
      push_cast
      ring_nf
      simp [Complex.I_sq]
    intro hcontra
    unfold q2w0 at hcontra
    rw [hrad] at hcontra
    have h2 : ((-Complex.I * (lam : ℂ)) ^ ((1 : ℂ) / 2)) ^ (2 : ℕ) =
        -Complex.I * (lam : ℂ) := by
      have h12 : (1 : ℂ) / 2 = (((2 : ℕ) : ℂ))⁻¹ := by norm_num
      rw [h12]
      exact Complex.cpow_nat_inv_pow _ (by norm_num)
    rw [hcontra, one_pow] at h2
    have him2 := congrArg Complex.im h2
    simp [Complex.mul_im] at him2
    exact hl0 him2
